import Mathlib

/-!
Verification of the streaming speech-to-text transcription pipeline.

Shallow embedding of the two source files:
* src/server1.js — the WER scorer (calculateWER, calculateAccuracy) and a
  transcription orchestrator;
* src/index.js — the streaming transcription orchestrator (transcribeAudio)
  with its chunk accumulator.

Modelling conventions:
* PCM bytes are modelled by an arbitrary type α (their values are opaque to
  the pipeline); a producer chunk is a List α.
* JavaScript strings are modelled by String; character-level operations
  (toLowerCase, split(" "), trim) are modelled on the character list, with
  ASCII case folding (Char.toLower) standing in for String.prototype.toLowerCase.
* JavaScript number division in the scorer is modelled exactly on ℚ.
* The opaque recognition engine (model.stt) is an arbitrary function
  List α → Except String String: ok-results are transcripts, error-results
  model thrown exceptions carrying a message.
* Loops are rendered as structurally recursive functions; the while loop of
  the accumulator uses a fuel argument bounded by the buffer length (each
  iteration removes at least one byte, so buffer-length fuel suffices).
-/

namespace SpeechPipeline

/-! ### WER scorer (src/server1.js, lines 31-61) -/

/-- A scored word: the character list of one token. -/
abbrev Word := List Char

/-- Model of JavaScript `s.split(" ")` on a character list: split at every
occurrence of the space character, keeping empty segments, and returning
the single empty segment for the empty input (in JS, `"".split(" ")` is `[""]`). -/
def splitSpace : List Char → List Word
  | [] => [[]]
  | c :: cs =>
    if c = ' ' then [] :: splitSpace cs
    else
      match splitSpace cs with
      | [] => [[c]]
      | w :: ws => (c :: w) :: ws

/-- The scorer's tokenization (src/server1.js lines 32-33):
`reference.toLowerCase().split(" ")`. -/
def tokenize (s : String) : List Word :=
  splitSpace (s.data.map Char.toLower)

/-- The dynamic-programming matrix of calculateWER (src/server1.js lines 36-57),
rendered as a function of the cell indices: `dAux ref hyp fuel i j` is the value
the code stores in `dp[i][j]`, provided `i + j ≤ fuel` (the fuel argument makes
the recursion structural; it is irrelevant when large enough).
`dp[i][0] = i`, `dp[0][j] = j`, and for `i,j ≥ 1` the cell compares
`ref[i-1]` with `hyp[j-1]` and takes
`Math.min(dp[i-1][j-1]+1, dp[i][j-1]+1, dp[i-1][j]+1)` on mismatch. -/
def dAux (ref hyp : List Word) : ℕ → ℕ → ℕ → ℕ
  | _, 0, j => j
  | _, i+1, 0 => i+1
  | 0, _+1, _+1 => 0
  | fuel+1, i+1, j+1 =>
    if ref.getD i [] = hyp.getD j [] then
      dAux ref hyp fuel i j
    else
      min (dAux ref hyp fuel i j + 1)
        (min (dAux ref hyp fuel (i+1) j + 1) (dAux ref hyp fuel i (j+1) + 1))

/-- The corner entry `dp[ref.length][hyp.length]` of the scorer's matrix. -/
def editDistanceMatrix (ref hyp : List Word) : ℕ :=
  dAux ref hyp (ref.length + hyp.length) ref.length hyp.length

/-- calculateWER (src/server1.js lines 31-61): tokenize both texts, fill the
edit-distance matrix, return `dp[ref.length][hyp.length] / ref.length`. -/
def calculateWER (reference hypothesis : String) : ℚ :=
  let ref := tokenize reference
  let hyp := tokenize hypothesis
  (editDistanceMatrix ref hyp : ℚ) / (ref.length : ℚ)

/-- Rounding to two decimal places, modelling the numeric value of
JavaScript `x.toFixed(2)`. -/
def roundTo2 (q : ℚ) : ℚ := ((round (q * 100) : ℤ) : ℚ) / 100

/-- calculateAccuracy (src/server1.js lines 64-67):
`((1 - wer) * 100).toFixed(2)`, modelled as the rounded rational value. -/
def calculateAccuracy (reference hypothesis : String) : ℚ :=
  roundTo2 ((1 - calculateWER reference hypothesis) * 100)

/-- The classic Levenshtein edit distance between two sequences, with unit
cost for substitution, insertion and deletion (specification-side definition,
independent of the code's matrix). -/
def lev {β : Type _} [DecidableEq β] : List β → List β → ℕ
  | [], ys => ys.length
  | x :: xs, [] => (x :: xs).length
  | x :: xs, y :: ys =>
    if x = y then lev xs ys
    else 1 + min (lev xs ys) (min (lev (x :: xs) ys) (lev xs (y :: ys)))
termination_by xs ys => xs.length + ys.length
decreasing_by all_goals simp_arith

/-! ### Spec-side tokenizer, for comparison with the code's (spec §4.3:
"split both texts on whitespace, case-fold (lowercase)") -/

/-- Splitting at every whitespace character, same shape as `splitSpace` but
with the separator class the specification names ("whitespace"). -/
def splitWhitespace : List Char → List Word
  | [] => [[]]
  | c :: cs =>
    if c.isWhitespace then [] :: splitWhitespace cs
    else
      match splitWhitespace cs with
      | [] => [[c]]
      | w :: ws => (c :: w) :: ws

/-- The tokenization the specification describes: lowercase, then split on
whitespace. Stated from the spec's words, to be compared with `tokenize`. -/
def specTokenizeWhitespace (s : String) : List Word :=
  splitWhitespace (s.data.map Char.toLower)

/-- Rejoining tokens with single spaces (inverse of `splitSpace`). -/
def joinSpace : List Word → List Char
  | [] => []
  | [w] => w
  | w :: w' :: ws => w ++ ' ' :: joinSpace (w' :: ws)

/-! ### Chunk accumulator (src/index.js lines 60-81, src/server1.js lines 116-138) -/

/-- One run of the accumulation while loop
(`while (currentBuffer.length >= CHUNK_SIZE) { slice(0, CHUNK_SIZE); slice(CHUNK_SIZE) }`),
with structural fuel: each iteration removes `n ≥ 1` bytes, so fuel
`buf.length` is always sufficient. Returns the extracted units (in order)
and the remaining buffer. -/
def extractUnitsAux {α : Type _} (n : ℕ) : ℕ → List α → List (List α) × List α
  | 0, buf => ([], buf)
  | fuel+1, buf =>
    if n ≠ 0 ∧ n ≤ buf.length then
      let r := extractUnitsAux n fuel (buf.drop n)
      (buf.take n :: r.1, r.2)
    else ([], buf)

/-- The accumulation while loop, fuel instantiated with the buffer length. -/
def extractUnits {α : Type _} (n : ℕ) (buf : List α) : List (List α) × List α :=
  extractUnitsAux n buf.length buf

/-- Processing a list of producer chunks through the accumulator, starting
from buffer `buf`: each chunk is appended
(`currentBuffer = Buffer.concat([currentBuffer, chunk])`) and then the
while loop extracts full units. Returns all units yielded, in order, and
the final buffer residue. -/
def runAccAux {α : Type _} (n : ℕ) : List α → List (List α) → List (List α) × List α
  | buf, [] => ([], buf)
  | buf, c :: cs =>
    let r := extractUnits n (buf ++ c)
    let rest := runAccAux n r.2 cs
    (r.1 ++ rest.1, rest.2)

/-- The accumulator run over a whole producer stream, from the empty buffer
(`let currentBuffer = Buffer.alloc(0)`). -/
def runAcc {α : Type _} (n : ℕ) (chunks : List (List α)) : List (List α) × List α :=
  runAccAux n [] chunks

/-- flushRemainder: on end-of-stream the leftover buffer is emitted as a final
unit only when it is non-empty (`if (currentBuffer.length > 0)`,
src/index.js line 53 / src/server1.js line 106). -/
def flushRemainder {α : Type _} (buf : List α) : List (List α) :=
  if buf.isEmpty then [] else [buf]

/-! ### Transcription orchestrator (src/index.js lines 30-94) -/

/-- A recorded incremental result: either a transcript line or the error
marker logged by the per-unit catch block
(`console.log("Error processing chunk:", err.message)`). -/
inductive Record where
  | transcript : String → Record
  | errorMarker : String → Record
deriving DecidableEq

/-- JavaScript falsiness of `text.trim()`: true iff the text contains only
whitespace (so `if (intermediateText.trim())` fails). -/
def isBlank (s : String) : Bool := s.data.all Char.isWhitespace

/-- What gets recorded for one full recognition unit (src/index.js lines 70-77,
src/server1.js lines 124-136): the engine call is wrapped in try/catch; on
success the transcript is recorded only when it is not whitespace-only; on an
engine error an error marker is recorded and the run continues. -/
def unitRecord {α : Type _} (engine : List α → Except String String)
    (u : List α) : Option Record :=
  match engine u with
  | .ok t => if isBlank t then none else some (.transcript t)
  | .error e => some (.errorMarker e)

/-- The end-of-stream flush (src/index.js lines 51-58): if the residual buffer
is non-empty, the engine is invoked on it with NO try/catch around the call,
so an engine error there propagates and aborts the run instead of being
recorded; on success its transcript is recorded. -/
def flushRun {α : Type _} (engine : List α → Except String String)
    (rest : List α) : Except String (List Record) :=
  if rest.isEmpty then .ok []
  else
    match engine rest with
    | .ok t => .ok [Record.transcript t]
    | .error e => .error e

/-- transcribeAudio (src/index.js lines 30-94), for a source that delivers
`chunks` and then signals end-of-stream: the chunks are pushed through the
accumulator, each full unit is recognized (per-unit try/catch, `unitRecord`),
the residue is flushed (`flushRun`, unprotected engine call), and finally the
engine runs once more on the concatenation of ALL raw chunks
(`Buffer.concat(chunks)`) to produce the final transcript; an error on that
final pass is rethrown to the caller (lines 90-93). Returns the ordered
record sequence and the final transcript, or the aborting error. -/
def transcribeAudio {α : Type _} (n : ℕ) (engine : List α → Except String String)
    (chunks : List (List α)) : Except String (List Record × String) :=
  let p := runAcc n chunks
  match flushRun engine p.2 with
  | .error e => .error e
  | .ok frecs =>
    match engine chunks.flatten with
    | .error e => .error e
    | .ok finalText => .ok (p.1.filterMap (unitRecord engine) ++ frecs, finalText)

/-- The chunk size used by src/index.js (line 42). -/
def CHUNK_SIZE_index : ℕ := 16000

/-- The chunk size used by src/server1.js (line 92). -/
def CHUNK_SIZE_server : ℕ := 32000

/-! ## Levenshtein distance lemmas -/

section Lev

variable {β : Type _} [DecidableEq β]

lemma lev_nil_left (ys : List β) : lev [] ys = ys.length := by
  simp [lev]

lemma lev_cons_nil (x : β) (xs : List β) : lev (x :: xs) [] = xs.length + 1 := by
  simp [lev]

lemma lev_cons_cons (x y : β) (xs ys : List β) :
    lev (x :: xs) (y :: ys) =
      if x = y then lev xs ys
      else 1 + min (lev xs ys) (min (lev (x :: xs) ys) (lev xs (y :: ys))) := by
  rw [lev]

lemma lev_nil_right (xs : List β) : lev xs [] = xs.length := by
  cases xs with
  | nil => simp [lev]
  | cons x xs => simp [lev]

lemma lev_symm (xs ys : List β) : lev xs ys = lev ys xs := by
  have H : ∀ n (xs ys : List β), xs.length + ys.length ≤ n → lev xs ys = lev ys xs := by
    intro n
    induction n with
    | zero =>
      intro xs ys h
      have hx : xs = [] := List.eq_nil_of_length_eq_zero (by omega)
      have hy : ys = [] := List.eq_nil_of_length_eq_zero (by omega)
      subst hx; subst hy; rfl
    | succ n ih =>
      intro xs ys h
      match xs, ys with
      | [], ys => rw [lev_nil_left, lev_nil_right]
      | x :: xs, [] => rw [lev_nil_left, lev_nil_right]
      | x :: xs, y :: ys =>
        rw [lev_cons_cons, lev_cons_cons]
        have h1 : lev xs ys = lev ys xs := by
          apply ih; simp at h ⊢; omega
        have h2 : lev (x :: xs) ys = lev ys (x :: xs) := by
          apply ih; simp at h ⊢; omega
        have h3 : lev xs (y :: ys) = lev (y :: ys) xs := by
          apply ih; simp at h ⊢; omega
        by_cases hxy : x = y
        · subst hxy; simp [h1]
        · rw [if_neg hxy, if_neg (fun hc => hxy hc.symm), h1, h2, h3]
          omega
  exact H (xs.length + ys.length) xs ys le_rfl

lemma lev_singleton_left (x : β) (zs : List β) :
    lev [x] zs = if x ∈ zs then zs.length - 1 else max 1 zs.length := by
  induction zs with
  | nil => simp [lev]
  | cons z zr ih =>
    rw [lev_cons_cons, lev_nil_left, lev_nil_left]
    by_cases hxz : x = z
    · subst hxz; simp
    · rw [if_neg hxz]
      by_cases hmem : x ∈ zr
      · have hlen : 1 ≤ zr.length := List.length_pos_of_mem hmem
        simp only [List.mem_cons, hmem, or_true, if_pos, List.length_cons]
        rw [ih, if_pos hmem]
        omega
      · have hmem' : x ∉ z :: zr := by simp [hxz, hmem]
        rw [if_neg hmem', ih, if_neg hmem]
        simp only [List.length_cons]
        omega

lemma lev_singleton_append (x y : β) (ys : List β) :
    lev [x] (ys ++ [y]) =
      if x = y then ys.length
      else 1 + min ys.length (min (lev [x] ys) (ys.length + 1)) := by
  rw [lev_singleton_left, lev_singleton_left]
  by_cases hxy : x = y
  · subst hxy
    rw [if_pos (by simp), if_pos rfl]
    simp
  · rw [if_neg hxy]
    by_cases hmem : x ∈ ys
    · have hlen : 1 ≤ ys.length := List.length_pos_of_mem hmem
      rw [if_pos (by simp [hmem]), if_pos hmem]
      simp only [List.length_append, List.length_singleton]
      omega
    · rw [if_neg (by simp [hmem, hxy]), if_neg hmem]
      simp only [List.length_append, List.length_singleton]
      omega

lemma lev_append_singleton_nil (x y : β) (xs : List β) :
    lev (xs ++ [x]) [y] =
      if x = y then xs.length
      else 1 + min xs.length (min (xs.length + 1) (lev xs [y])) := by
  rw [lev_symm, lev_singleton_append y x xs, lev_symm xs [y]]
  by_cases hxy : x = y
  · rw [if_pos hxy.symm, if_pos hxy]
  · rw [if_neg (fun hc => hxy hc.symm), if_neg hxy]
    omega

lemma lev_append_nil_ys (x y : β) (ys : List β) :
    lev ([] ++ [x]) (ys ++ [y]) =
      if x = y then lev [] ys
      else 1 + min (lev [] ys) (min (lev ([] ++ [x]) ys) (lev ([] : List β) (ys ++ [y]))) := by
  simp only [List.nil_append]
  rw [lev_singleton_append, lev_nil_left ys, lev_nil_left (ys ++ [y])]
  simp only [List.length_append, List.length_singleton]

lemma lev_append_xs_nil (x y : β) (xs : List β) :
    lev (xs ++ [x]) ([] ++ [y]) =
      if x = y then lev xs []
      else 1 + min (lev xs []) (min (lev (xs ++ [x]) []) (lev xs ([] ++ [y]))) := by
  simp only [List.nil_append]
  rw [lev_append_singleton_nil, lev_nil_right xs, lev_nil_right (xs ++ [x])]
  simp only [List.length_append, List.length_singleton]

/-- The append recurrence for the Levenshtein distance: extending both
sequences by one element on the right satisfies the same recurrence the
dynamic-programming matrix uses at cell (i+1, j+1). -/
lemma lev_append (x y : β) (xs ys : List β) :
    lev (xs ++ [x]) (ys ++ [y]) =
      if x = y then lev xs ys
      else 1 + min (lev xs ys) (min (lev (xs ++ [x]) ys) (lev xs (ys ++ [y]))) := by
  have H : ∀ n (xs ys : List β), xs.length + ys.length ≤ n →
      lev (xs ++ [x]) (ys ++ [y]) =
        if x = y then lev xs ys
        else 1 + min (lev xs ys) (min (lev (xs ++ [x]) ys) (lev xs (ys ++ [y]))) := by
    intro n
    induction n with
    | zero =>
      intro xs ys h
      have hx : xs = [] := List.eq_nil_of_length_eq_zero (by omega)
      have hy : ys = [] := List.eq_nil_of_length_eq_zero (by omega)
      subst hx; subst hy
      exact lev_append_nil_ys x y []
    | succ n ih =>
      intro xs ys h
      match xs, ys with
      | [], ys => exact lev_append_nil_ys x y ys
      | xs, [] => exact lev_append_xs_nil x y xs
      | a :: as, b :: bs =>
        have hlen : as.length + bs.length + 2 ≤ n + 1 := by
          simp only [List.length_cons] at h; omega
        have I1 := ih as bs (by omega)
        have I2 := ih (a :: as) bs (by simp only [List.length_cons]; omega)
        have I3 := ih as (b :: bs) (by simp only [List.length_cons]; omega)
        simp only [List.cons_append] at I1 I2 I3 ⊢
        rw [lev_cons_cons a b (as ++ [x]) (bs ++ [y])]
        rw [I1, I2, I3]
        rw [lev_cons_cons a b as bs,
          lev_cons_cons a b (as ++ [x]) bs,
          lev_cons_cons a b as (bs ++ [y])]
        generalize lev as bs = p1
        generalize lev (as ++ [x]) bs = p2
        generalize lev as (bs ++ [y]) = p3
        generalize lev (a :: as) bs = p4
        generalize lev as (b :: bs) = p5
        generalize lev (a :: (as ++ [x])) bs = p6
        generalize lev as (b :: (bs ++ [y])) = p7
        generalize lev (a :: as) (bs ++ [y]) = p8
        generalize lev (as ++ [x]) (b :: bs) = p9
        by_cases hab : a = b
        · by_cases hxy : x = y
          · simp only [if_pos hab, if_pos hxy]
          · simp only [if_pos hab, if_neg hxy]
        · by_cases hxy : x = y
          · simp only [if_neg hab, if_pos hxy]
          · simp only [if_neg hab, if_neg hxy, min_add_add_left]
            congr 1
            congr 1
            ac_rfl
  exact H (xs.length + ys.length) xs ys le_rfl

end Lev

/-! ## The scorer's matrix computes the Levenshtein distance -/

/-- Cell (i, j) of the scorer's dynamic-programming matrix equals the
Levenshtein distance between the first i reference words and the first j
hypothesis words (for adequate fuel and in-range indices). -/
lemma dAux_eq_lev (ref hyp : List Word) :
    ∀ fuel i j, i + j ≤ fuel → i ≤ ref.length → j ≤ hyp.length →
      dAux ref hyp fuel i j = lev (ref.take i) (hyp.take j) := by
  intro fuel
  induction fuel with
  | zero =>
    intro i j hf hi hj
    match i, j with
    | 0, j =>
      simp only [dAux, List.take_zero, lev_nil_left, List.length_take]
      omega
    | i+1, j => omega
  | succ fuel ih =>
    intro i j hf hi hj
    match i, j with
    | 0, j =>
      simp only [dAux, List.take_zero, lev_nil_left, List.length_take]
      omega
    | i+1, 0 =>
      simp only [dAux, List.take_zero, lev_nil_right, List.length_take]
      omega
    | i+1, j+1 =>
      have hi' : i < ref.length := by omega
      have hj' : j < hyp.length := by omega
      have H1 := ih i j (by omega) (by omega) (by omega)
      have H2 := ih (i+1) j (by omega) (by omega) (by omega)
      have H3 := ih i (j+1) (by omega) (by omega) (by omega)
      simp only [dAux]
      rw [List.getD_eq_getElem ref [] hi', List.getD_eq_getElem hyp [] hj']
      rw [← List.take_concat_get ref i hi', ← List.take_concat_get hyp j hj',
        List.concat_eq_append, List.concat_eq_append, lev_append]
      rw [← List.take_concat_get ref i hi', List.concat_eq_append] at H2
      rw [← List.take_concat_get hyp j hj', List.concat_eq_append] at H3
      by_cases hc : ref[i] = hyp[j]
      · rw [if_pos hc, if_pos hc, H1]
      · rw [if_neg hc, if_neg hc, H1, H2, H3]
        omega

/-- The corner entry of the scorer's matrix is the classic Levenshtein
distance between the two word sequences. -/
lemma editDistanceMatrix_eq_lev (ref hyp : List Word) :
    editDistanceMatrix ref hyp = lev ref hyp := by
  have h := dAux_eq_lev ref hyp (ref.length + hyp.length) ref.length hyp.length
    le_rfl le_rfl le_rfl
  simpa [editDistanceMatrix, List.take_length] using h

/-! ## Chunk accumulator lemmas -/

section Accumulator

variable {α : Type _}

lemma extractUnitsAux_conserve (n : ℕ) :
    ∀ fuel (buf : List α),
      (extractUnitsAux n fuel buf).1.flatten ++ (extractUnitsAux n fuel buf).2 = buf := by
  intro fuel
  induction fuel with
  | zero => intro buf; simp [extractUnitsAux]
  | succ fuel ih =>
    intro buf
    simp only [extractUnitsAux]
    by_cases h : n ≠ 0 ∧ n ≤ buf.length
    · rw [if_pos h]
      simp only [List.flatten_cons, List.append_assoc, ih]
      exact List.take_append_drop n buf
    · rw [if_neg h]
      simp

lemma extractUnitsAux_units_length (n : ℕ) :
    ∀ fuel (buf : List α) u, u ∈ (extractUnitsAux n fuel buf).1 → u.length = n := by
  intro fuel
  induction fuel with
  | zero => intro buf u hu; simp [extractUnitsAux] at hu
  | succ fuel ih =>
    intro buf u hu
    simp only [extractUnitsAux] at hu
    by_cases h : n ≠ 0 ∧ n ≤ buf.length
    · rw [if_pos h] at hu
      simp only [List.mem_cons] at hu
      rcases hu with rfl | hu
      · simp only [List.length_take]
        omega
      · exact ih (buf.drop n) u hu
    · rw [if_neg h] at hu
      simp at hu

lemma extractUnitsAux_residue (n : ℕ) (hn : 0 < n) :
    ∀ fuel (buf : List α), buf.length ≤ fuel →
      (extractUnitsAux n fuel buf).2.length < n := by
  intro fuel
  induction fuel with
  | zero =>
    intro buf hf
    have : buf = [] := List.eq_nil_of_length_eq_zero (by omega)
    subst this
    simpa [extractUnitsAux] using hn
  | succ fuel ih =>
    intro buf hf
    simp only [extractUnitsAux]
    by_cases h : n ≠ 0 ∧ n ≤ buf.length
    · rw [if_pos h]
      exact ih (buf.drop n) (by simp only [List.length_drop]; omega)
    · rw [if_neg h]
      have hlt : ¬ n ≤ buf.length := fun hle => h ⟨by omega, hle⟩
      show buf.length < n
      omega

lemma runAccAux_conserve (n : ℕ) :
    ∀ (cs : List (List α)) (buf : List α),
      (runAccAux n buf cs).1.flatten ++ (runAccAux n buf cs).2 = buf ++ cs.flatten := by
  intro cs
  induction cs with
  | nil => intro buf; simp [runAccAux]
  | cons c cs ih =>
    intro buf
    simp only [runAccAux, List.flatten_append, List.flatten_cons, List.append_assoc]
    rw [ih]
    rw [← List.append_assoc]
    simp only [extractUnits]
    rw [extractUnitsAux_conserve]
    simp [List.append_assoc]

lemma runAccAux_units (n : ℕ) :
    ∀ (cs : List (List α)) (buf : List α) u,
      u ∈ (runAccAux n buf cs).1 → u.length = n := by
  intro cs
  induction cs with
  | nil => intro buf u hu; simp [runAccAux] at hu
  | cons c cs ih =>
    intro buf u hu
    simp only [runAccAux, List.mem_append] at hu
    rcases hu with hu | hu
    · exact extractUnitsAux_units_length n _ _ u hu
    · exact ih _ u hu

lemma runAccAux_residue (n : ℕ) (hn : 0 < n) :
    ∀ (cs : List (List α)) (buf : List α), buf.length < n →
      (runAccAux n buf cs).2.length < n := by
  intro cs
  induction cs with
  | nil => intro buf hb; simpa [runAccAux] using hb
  | cons c cs ih =>
    intro buf hb
    simp only [runAccAux]
    exact ih _ (extractUnitsAux_residue n hn _ _ le_rfl)

end Accumulator

/-! ## Tokenizer lemmas -/

lemma splitSpace_ne_nil : ∀ cs : List Char, splitSpace cs ≠ [] := by
  intro cs
  induction cs with
  | nil => simp [splitSpace]
  | cons c cs ih =>
    simp only [splitSpace]
    by_cases h : c = ' '
    · simp [h]
    · rw [if_neg h]
      cases hs : splitSpace cs with
      | nil => simp
      | cons w ws => simp

lemma tokenize_ne_nil (s : String) : tokenize s ≠ [] :=
  splitSpace_ne_nil _

lemma joinSpace_splitSpace : ∀ cs : List Char, joinSpace (splitSpace cs) = cs := by
  intro cs
  induction cs with
  | nil => rfl
  | cons c cs ih =>
    simp only [splitSpace]
    by_cases h : c = ' '
    · rw [if_pos h]
      subst h
      cases hs : splitSpace cs with
      | nil => exact absurd hs (splitSpace_ne_nil cs)
      | cons w ws =>
        rw [hs] at ih
        show joinSpace ([] :: w :: ws) = ' ' :: cs
        simp only [joinSpace, List.nil_append]
        rw [ih]
    · rw [if_neg h]
      cases hs : splitSpace cs with
      | nil => exact absurd hs (splitSpace_ne_nil cs)
      | cons w ws =>
        rw [hs] at ih
        cases ws with
        | nil =>
          simp only [joinSpace] at ih ⊢
          rw [ih]
        | cons w' ws' =>
          simp only [joinSpace] at ih ⊢
          rw [List.cons_append, ih]

lemma splitSpace_no_space : ∀ (cs : List Char) w, w ∈ splitSpace cs → ' ' ∉ w := by
  intro cs
  induction cs with
  | nil =>
    intro w hw
    simp only [splitSpace, List.mem_singleton] at hw
    subst hw
    simp
  | cons c cs ih =>
    intro w hw
    simp only [splitSpace] at hw
    by_cases h : c = ' '
    · rw [if_pos h] at hw
      rcases List.mem_cons.mp hw with rfl | hw
      · simp
      · exact ih w hw
    · rw [if_neg h] at hw
      cases hs : splitSpace cs with
      | nil => exact absurd hs (splitSpace_ne_nil cs)
      | cons v vs =>
        rw [hs] at hw
        rcases List.mem_cons.mp hw with rfl | hw
        · intro hmem
          rcases List.mem_cons.mp hmem with hc | hv
          · exact h hc.symm
          · exact ih v (by rw [hs]; exact List.mem_cons_self v vs) hv
        · exact ih w (by rw [hs]; exact List.mem_cons_of_mem v hw)

/-! ## Scorer value lemmas -/

lemma calculateWER_nonneg (reference hypothesis : String) :
    0 ≤ calculateWER reference hypothesis := by
  simp only [calculateWER]
  apply div_nonneg
  · exact_mod_cast Nat.zero_le _
  · exact_mod_cast Nat.zero_le _

lemma calculateAccuracy_le_100 (reference hypothesis : String) :
    calculateAccuracy reference hypothesis ≤ 100 := by
  have hw : 0 ≤ calculateWER reference hypothesis := calculateWER_nonneg reference hypothesis
  simp only [calculateAccuracy, roundTo2]
  have h2 : round ((1 - calculateWER reference hypothesis) * 100 * 100) ≤ 10000 := by
    rw [round_eq]
    have hfl : ⌊((10000 : ℚ) + 1 / 2)⌋ = 10000 := by
      rw [Int.floor_eq_iff]
      norm_num
    calc ⌊(1 - calculateWER reference hypothesis) * 100 * 100 + 1 / 2⌋
        ≤ ⌊((10000 : ℚ) + 1 / 2)⌋ := Int.floor_le_floor (by nlinarith)
      _ = 10000 := hfl
  have h2' : ((round ((1 - calculateWER reference hypothesis) * 100 * 100) : ℤ) : ℚ) ≤ 10000 := by
    exact_mod_cast h2
  linarith

/-! ## Orchestrator lemmas -/

section Orchestrator

variable {α : Type _}

lemma transcribeAudio_ok (n : ℕ) (engine : List α → Except String String)
    (chunks : List (List α)) (frecs : List Record) (tfin : String)
    (hf : flushRun engine (runAcc n chunks).2 = .ok frecs)
    (hfin : engine chunks.flatten = .ok tfin) :
    transcribeAudio n engine chunks =
      .ok ((runAcc n chunks).1.filterMap (unitRecord engine) ++ frecs, tfin) := by
  simp only [transcribeAudio, hf, hfin]

lemma transcribeAudio_flush_error (n : ℕ) (engine : List α → Except String String)
    (chunks : List (List α)) (e : String)
    (hf : flushRun engine (runAcc n chunks).2 = .error e) :
    transcribeAudio n engine chunks = .error e := by
  simp only [transcribeAudio, hf]

lemma transcribeAudio_final_error (n : ℕ) (engine : List α → Except String String)
    (chunks : List (List α)) (frecs : List Record) (e : String)
    (hf : flushRun engine (runAcc n chunks).2 = .ok frecs)
    (hfin : engine chunks.flatten = .error e) :
    transcribeAudio n engine chunks = .error e := by
  simp only [transcribeAudio, hf, hfin]

lemma transcribeAudio_ok_final (n : ℕ) (engine : List α → Except String String)
    (chunks : List (List α)) (recs : List Record) (tfin : String)
    (h : transcribeAudio n engine chunks = .ok (recs, tfin)) :
    engine chunks.flatten = .ok tfin := by
  simp only [transcribeAudio] at h
  cases hf : flushRun engine (runAcc n chunks).2 with
  | error e => rw [hf] at h; simp at h
  | ok frecs =>
    rw [hf] at h
    cases hfin : engine chunks.flatten with
    | error e => rw [hfin] at h; simp at h
    | ok t =>
      rw [hfin] at h
      simp only [Except.ok.injEq, Prod.mk.injEq] at h
      rw [h.2]

lemma unitRecord_error (engine : List α → Except String String) (u : List α)
    (e : String) (h : engine u = .error e) :
    unitRecord engine u = some (.errorMarker e) := by
  simp [unitRecord, h]

lemma unitRecord_blank (engine : List α → Except String String) (u : List α)
    (t : String) (h : engine u = .ok t) (hb : isBlank t = true) :
    unitRecord engine u = none := by
  simp [unitRecord, h, hb]

lemma unitRecord_nonblank (engine : List α → Except String String) (u : List α)
    (t : String) (h : engine u = .ok t) (hb : isBlank t = false) :
    unitRecord engine u = some (.transcript t) := by
  simp [unitRecord, h, hb]

end Orchestrator

/-! ## Concrete engines used to exercise the orchestrator -/

/-- An engine that fails exactly on the byte sequence [2] (which below is the
flushed remainder unit) and succeeds elsewhere. -/
def engineFlushFail : List ℕ → Except String String :=
  fun u => if u = [2] then .error "boom" else .ok "ok"

/-- An engine that always returns a whitespace-only transcript. -/
def engineBlank : List ℕ → Except String String :=
  fun _ => .ok " "

/-- An engine that fails exactly on the byte sequence [2, 3] (which below is
the second full unit) and succeeds elsewhere. -/
def engineUnitFail : List ℕ → Except String String :=
  fun u => if u = [2, 3] then .error "unit error" else .ok "text"

/-- An engine whose transcript encodes the length of its input, making
different invocations distinguishable. -/
def lenEngine : List ℕ → Except String String :=
  fun u => .ok (String.mk (u.map fun _ => 'a'))

/-- Evaluation helper: calculateWER from the matrix value and the reference
word count. -/
lemma calculateWER_eq_of (reference hypothesis : String) (dval len : ℕ)
    (hd : editDistanceMatrix (tokenize reference) (tokenize hypothesis) = dval)
    (hl : (tokenize reference).length = len) :
    calculateWER reference hypothesis = (dval : ℚ) / (len : ℚ) := by
  simp only [calculateWER, hd, hl]

/-! ## Claims -/

/-- C1: for every reference and hypothesis whose tokenizations are non-empty,
calculateWER returns the classic Levenshtein edit distance over the two word
sequences (computed by the code's dynamic-programming matrix) divided by the
number of reference words; concretely, for reference "the quick brown fox"
and hypothesis "the quick fox" the edit distance is 1 and the WER is 0.25. -/
theorem claim_C1_wer_computes_levenshtein :
    (∀ reference hypothesis : String,
      tokenize reference ≠ [] → tokenize hypothesis ≠ [] →
        calculateWER reference hypothesis =
          (lev (tokenize reference) (tokenize hypothesis) : ℚ) /
            ((tokenize reference).length : ℚ))
    ∧ lev (tokenize "the quick brown fox") (tokenize "the quick fox") = 1
    ∧ calculateWER "the quick brown fox" "the quick fox" = 1 / 4 := by
  refine ⟨fun reference hypothesis _ _ => ?_, ?_, ?_⟩
  · simp only [calculateWER, editDistanceMatrix_eq_lev]
  · rw [← editDistanceMatrix_eq_lev]
    decide
  · rw [calculateWER_eq_of "the quick brown fox" "the quick fox" 1 4
      (by decide) (by decide)]
    norm_num

/-- Witness for C1 at the concrete spec example. -/
theorem claim_C1_wer_computes_levenshtein_witness :
    tokenize "the quick brown fox" ≠ [] ∧ tokenize "the quick fox" ≠ [] ∧
      calculateWER "the quick brown fox" "the quick fox" =
        (lev (tokenize "the quick brown fox") (tokenize "the quick fox") : ℚ) /
          ((tokenize "the quick brown fox").length : ℚ) :=
  ⟨by decide, by decide,
    claim_C1_wer_computes_levenshtein.1 "the quick brown fox" "the quick fox"
      (by decide) (by decide)⟩

/-- C2: for every finite byte sequence, however it is split into producer
chunks, the concatenation of all Recognition Units yielded by the accumulator
(full units in emission order, followed by the flushed remainder) equals the
original byte sequence exactly. -/
theorem claim_C2_byte_conservation :
    ∀ (α : Type) (n : ℕ) (chunks : List (List α)),
      ((runAcc n chunks).1 ++ flushRemainder (runAcc n chunks).2).flatten =
        chunks.flatten := by
  intro α n chunks
  rw [List.flatten_append]
  have hfr : (flushRemainder (runAcc n chunks).2).flatten = (runAcc n chunks).2 := by
    simp only [flushRemainder]
    by_cases hb : (runAcc n chunks).2.isEmpty
    · rw [if_pos hb]
      simp only [List.isEmpty_iff] at hb
      simp [hb]
    · rw [if_neg hb]
      simp
  rw [hfr]
  simpa [runAcc] using runAccAux_conserve n chunks []

/-- C3 (behaviour of the code at the failing input): with an empty reference
text the scorer does not fail and does not return NaN or Infinity: the
tokenization of "" is the single empty token, so the divisor is 1 and
calculateWER returns the finite rational 1 against hypothesis "x". -/
theorem claim_C3_empty_reference_returns_value :
    tokenize "" = [[]] ∧ (tokenize "").length = 1 ∧ calculateWER "" "x" = 1 := by
  refine ⟨by decide, by decide, ?_⟩
  rw [calculateWER_eq_of "" "x" 1 1 (by decide) (by decide)]
  norm_num

/-- C4: calculateAccuracy returns (1 - WER) * 100 rounded to two decimals, is
bounded above by 100, and may be negative: for reference "a" and hypothesis
"a b c" the WER is 2 and the accuracy is -100. -/
theorem claim_C4_accuracy_formula_and_bound :
    (∀ reference hypothesis : String, tokenize reference ≠ [] →
      calculateAccuracy reference hypothesis =
        roundTo2 ((1 - calculateWER reference hypothesis) * 100) ∧
      calculateAccuracy reference hypothesis ≤ 100)
    ∧ calculateWER "a" "a b c" = 2
    ∧ calculateAccuracy "a" "a b c" = -100 := by
  have hw : calculateWER "a" "a b c" = 2 := by
    rw [calculateWER_eq_of "a" "a b c" 2 1 (by decide) (by decide)]
    norm_num
  refine ⟨fun reference hypothesis _ =>
    ⟨rfl, calculateAccuracy_le_100 reference hypothesis⟩, hw, ?_⟩
  simp only [calculateAccuracy, roundTo2, hw]
  norm_num
  rw [show ((-10000 : ℚ)) = ((-10000 : ℤ) : ℚ) by norm_num, round_intCast]
  norm_num

/-- Witness for C4 at the concrete spec example. -/
theorem claim_C4_accuracy_formula_and_bound_witness :
    tokenize "a" ≠ [] ∧ calculateAccuracy "a" "a b c" ≤ 100 :=
  ⟨by decide, (claim_C4_accuracy_formula_and_bound.1 "a" "a b c" (by decide)).2⟩

/-- C5 counterexample: the scorer splits on the single space character, not on
whitespace: for the input text containing a tab, the scored token list is a
single token containing the tab, the whitespace tokenization of the spec is
two tokens, the two disagree, and the divergence is observable in the WER
(the code scores reference "a\tb" against hypothesis "a b" as 2, whereas
under whitespace tokenization the two texts would have identical token
lists). -/
theorem claim_C5_tokenization_cex :
    tokenize "a\tb" = [['a', '\t', 'b']] ∧
    specTokenizeWhitespace "a\tb" = [['a'], ['b']] ∧
    tokenize "a\tb" ≠ specTokenizeWhitespace "a\tb" ∧
    tokenize "a b" = specTokenizeWhitespace "a\tb" ∧
    calculateWER "a\tb" "a b" = 2 := by
  refine ⟨by decide, by decide, by decide, by decide, ?_⟩
  rw [calculateWER_eq_of "a\tb" "a b" 2 1 (by decide) (by decide)]
  norm_num

/-- C5 (amended): the scorer tokenizes both texts by lowercasing and then
splitting on every single space character (empty tokens between consecutive
spaces are kept): rejoining the tokens with single spaces reconstructs the
lowercased character sequence exactly (so no character is dropped — no
punctuation stripping, no stemming), and no token contains a space. -/
theorem claim_C5_tokenization_amended :
    ∀ s : String,
      joinSpace (tokenize s) = s.data.map Char.toLower ∧
      ∀ w ∈ tokenize s, ' ' ∉ w := by
  intro s
  exact ⟨joinSpace_splitSpace _, fun w hw => splitSpace_no_space _ w hw⟩

/-- Witness for the amended C5 at a concrete input. -/
theorem claim_C5_tokenization_amended_witness :
    (['a', 'b'] ∈ tokenize "Ab c") ∧ ' ' ∉ (['a', 'b'] : List Char) :=
  ⟨by decide, (claim_C5_tokenization_amended "Ab c").2 ['a', 'b'] (by decide)⟩

/-- C6: with a positive unit size, every incremental Recognition Unit has
length exactly the unit size, the residual buffer after processing any chunk
sequence is strictly shorter than the unit size, the flushed remainder (when
emitted) is non-empty and shorter than the unit size, and it is omitted
entirely when the residue is empty. -/
theorem claim_C6_unit_sizing :
    ∀ (α : Type) (n : ℕ) (chunks : List (List α)), 0 < n →
      (∀ u ∈ (runAcc n chunks).1, u.length = n) ∧
      (runAcc n chunks).2.length < n ∧
      (∀ u ∈ flushRemainder (runAcc n chunks).2, 0 < u.length ∧ u.length < n) ∧
      ((runAcc n chunks).2 = [] → flushRemainder (runAcc n chunks).2 = []) := by
  intro α n chunks hn
  have hres : (runAcc n chunks).2.length < n :=
    runAccAux_residue n hn chunks [] (by simpa using hn)
  refine ⟨fun u hu => runAccAux_units n chunks [] u hu, hres, ?_, ?_⟩
  · intro u hu
    simp only [flushRemainder] at hu
    by_cases hb : (runAcc n chunks).2.isEmpty
    · rw [if_pos hb] at hu
      simp at hu
    · rw [if_neg hb] at hu
      simp only [List.mem_singleton] at hu
      subst hu
      simp only [List.isEmpty_iff] at hb
      exact ⟨List.length_pos.mpr hb, hres⟩
  · intro h2
    simp [flushRemainder, h2]

/-- Witness for C6 at a concrete run. -/
theorem claim_C6_unit_sizing_witness :
    0 < 2 ∧ (runAcc 2 ([[0, 1, 2]] : List (List ℕ))).2.length < 2 :=
  ⟨by decide, (claim_C6_unit_sizing ℕ 2 [[0, 1, 2]] (by decide)).2.1⟩

/-- C7 counterexample: an Engine error on the flushed remainder unit is NOT
recorded as an error marker with the run continuing — the flush engine call
is not wrapped in try/catch, so the run aborts with the error: here the
remainder unit is [2], the engine fails only on it (in particular the
full-buffer pass would have succeeded), and the whole run returns the error
instead of a record list. -/
theorem claim_C7_flush_error_cex :
    (runAcc 2 ([[0, 1, 2]] : List (List ℕ))).2 = [2] ∧
    engineFlushFail [2] = .error "boom" ∧
    engineFlushFail [0, 1, 2] = .ok "ok" ∧
    transcribeAudio 2 engineFlushFail [[0, 1, 2]] = .error "boom" :=
  ⟨by decide, by rfl, by rfl, by rfl⟩

/-- C7 (amended): an Engine error on an individual FULL recognition unit is
recorded as an error marker and the run continues (the run completes whatever
the per-unit outcomes, and a failing unit contributes a marker); but an
Engine error on the flushed remainder unit, or on the full-buffer final pass,
aborts the run and surfaces the error to the caller. -/
theorem claim_C7_unit_errors_amended :
    (∀ (n : ℕ) (engine : List ℕ → Except String String) (chunks : List (List ℕ))
        (frecs : List Record) (tfin : String),
      flushRun engine (runAcc n chunks).2 = .ok frecs →
      engine chunks.flatten = .ok tfin →
      transcribeAudio n engine chunks =
        .ok ((runAcc n chunks).1.filterMap (unitRecord engine) ++ frecs, tfin)) ∧
    (∀ (engine : List ℕ → Except String String) (u : List ℕ) (e : String),
      engine u = .error e → unitRecord engine u = some (.errorMarker e)) ∧
    (∀ (n : ℕ) (engine : List ℕ → Except String String) (chunks : List (List ℕ))
        (e : String),
      flushRun engine (runAcc n chunks).2 = .error e →
      transcribeAudio n engine chunks = .error e) ∧
    (∀ (n : ℕ) (engine : List ℕ → Except String String) (chunks : List (List ℕ))
        (frecs : List Record) (e : String),
      flushRun engine (runAcc n chunks).2 = .ok frecs →
      engine chunks.flatten = .error e →
      transcribeAudio n engine chunks = .error e) :=
  ⟨fun n engine chunks frecs tfin hf hfin =>
      transcribeAudio_ok n engine chunks frecs tfin hf hfin,
    fun engine u e h => unitRecord_error engine u e h,
    fun n engine chunks e hf => transcribeAudio_flush_error n engine chunks e hf,
    fun n engine chunks frecs e hf hfin =>
      transcribeAudio_final_error n engine chunks frecs e hf hfin⟩

/-- Witness for the amended C7: a run of 2 full units and a remainder where
the engine fails exactly on the second full unit still completes, records a
marker for that unit in place, and keeps the surrounding transcripts. -/
theorem claim_C7_unit_errors_amended_witness :
    flushRun engineUnitFail (runAcc 2 ([[0, 1, 2, 3, 4]] : List (List ℕ))).2 =
      .ok [Record.transcript "text"] ∧
    engineUnitFail ([[0, 1, 2, 3, 4]] : List (List ℕ)).flatten = .ok "text" ∧
    engineUnitFail [2, 3] = .error "unit error" ∧
    transcribeAudio 2 engineUnitFail [[0, 1, 2, 3, 4]] =
      .ok ([Record.transcript "text", Record.errorMarker "unit error",
        Record.transcript "text"], "text") ∧
    unitRecord engineUnitFail [2, 3] = some (.errorMarker "unit error") :=
  ⟨by rfl, by rfl, by rfl,
    claim_C7_unit_errors_amended.1 2 engineUnitFail [[0, 1, 2, 3, 4]]
      [Record.transcript "text"] "text" (by rfl) (by rfl),
    claim_C7_unit_errors_amended.2.1 engineUnitFail [2, 3] "unit error" (by rfl)⟩

/-- C8 counterexample: a whitespace-only intermediate transcript is not
retained in the recorded sequence at all (it is dropped, not tagged as
empty): one full unit is processed, the engine returns the whitespace-only
transcript, yet the run's record list is empty. -/
theorem claim_C8_blank_retention_cex :
    (runAcc 2 ([[0, 1]] : List (List ℕ))).1 = [[0, 1]] ∧
    engineBlank [0, 1] = .ok " " ∧
    isBlank " " = true ∧
    transcribeAudio 2 engineBlank [[0, 1]] = .ok ([], " ") :=
  ⟨by decide, by rfl, by rfl, by rfl⟩

/-- C8 (amended): whitespace-only transcripts of full units are suppressed
from the recorded sequence itself (nothing is recorded for such a unit),
while non-blank transcripts and engine errors are recorded. -/
theorem claim_C8_blank_suppressed_amended :
    (∀ (engine : List ℕ → Except String String) (u : List ℕ) (t : String),
      engine u = .ok t → isBlank t = true → unitRecord engine u = none) ∧
    (∀ (engine : List ℕ → Except String String) (u : List ℕ) (t : String),
      engine u = .ok t → isBlank t = false →
        unitRecord engine u = some (.transcript t)) :=
  ⟨fun engine u t h hb => unitRecord_blank engine u t h hb,
    fun engine u t h hb => unitRecord_nonblank engine u t h hb⟩

/-- Witness for the amended C8 at a concrete blank transcript. -/
theorem claim_C8_blank_suppressed_amended_witness :
    engineBlank [0, 1] = .ok " " ∧ isBlank " " = true ∧
    unitRecord engineBlank [0, 1] = none :=
  ⟨by rfl, by rfl,
    claim_C8_blank_suppressed_amended.1 engineBlank [0, 1] " " (by rfl) (by rfl)⟩

/-- C9: whenever a run completes, the final transcript is the engine's output
on the concatenation of all raw chunks ever observed from the source (an
extra full-buffer engine invocation after end-of-stream, not a concatenation
of the incremental transcripts). -/
theorem claim_C9_final_pass_full_buffer :
    ∀ (n : ℕ) (engine : List ℕ → Except String String) (chunks : List (List ℕ))
      (recs : List Record) (tfin : String),
      transcribeAudio n engine chunks = .ok (recs, tfin) →
      engine chunks.flatten = .ok tfin :=
  fun n engine chunks recs tfin h =>
    transcribeAudio_ok_final n engine chunks recs tfin h

/-- Witness for C9 with an engine whose transcripts encode input length: the
final transcript "aaa" is the engine's answer on the 3-byte full buffer. -/
theorem claim_C9_final_pass_full_buffer_witness :
    transcribeAudio 2 lenEngine ([[0, 1, 2]] : List (List ℕ)) =
      .ok ([Record.transcript "aa", Record.transcript "a"], "aaa") ∧
    lenEngine ([[0, 1, 2]] : List (List ℕ)).flatten = .ok "aaa" :=
  ⟨by rfl,
    claim_C9_final_pass_full_buffer 2 lenEngine [[0, 1, 2]]
      [Record.transcript "aa", Record.transcript "a"] "aaa" (by rfl)⟩

/-- C10 (implicit): for every pair of input strings, including the empty
reference, the tokenization yields at least one token (the single empty token
for ""), so the divisor in calculateWER is at least 1 and the returned WER is
a finite non-negative rational — no division by zero and no error. -/
theorem claim_C10_wer_total_nonneg :
    (∀ reference : String, 1 ≤ (tokenize reference).length) ∧
    tokenize "" = [[]] ∧
    (∀ reference hypothesis : String, 0 ≤ calculateWER reference hypothesis) := by
  refine ⟨?_, by decide, fun reference hypothesis =>
    calculateWER_nonneg reference hypothesis⟩
  intro reference
  exact List.length_pos.mpr (tokenize_ne_nil reference)

end SpeechPipeline
